import Mathlib

/-!
Verification of the company-extraction core of the backend
(`src/utils/company_extraction.py`).

Modelling conventions:
* Python strings are shallowly embedded as `List Char`; a concrete string
  literal `"abc"` of the source appears as `("abc".toList)`.
* The source operates on ASCII data (email addresses, fixed dictionaries),
  so Python's `str.lower` / `str.upper` / `str.isupper` / `str.strip` are
  modelled on the ASCII fragment: `pyLower`, `pyUpper`, `pyIsUpper`,
  `pyWhitespace`.
* `raise ValueError` is modelled with `Option`: `none` is the raised
  `InvalidEmailError` of the spec.
-/

namespace CompanyExtraction

/-- ASCII model of Python lower-casing for one character
(`str.lower` maps `A`..`Z`, code points 65..90, to 97..122). -/
def pyLower (c : Char) : Char :=
  if 65 ≤ c.toNat ∧ c.toNat ≤ 90 then Char.ofNat (c.toNat + 32) else c

/-- ASCII model of Python upper-casing for one character
(`str.upper` on 97..122, used by `str.capitalize`). -/
def pyUpper (c : Char) : Char :=
  if 97 ≤ c.toNat ∧ c.toNat ≤ 122 then Char.ofNat (c.toNat - 32) else c

/-- ASCII model of Python `char.isupper()`. -/
def pyIsUpper (c : Char) : Bool :=
  decide (65 ≤ c.toNat ∧ c.toNat ≤ 90)

/-- ASCII model of Python `char.isalpha()`. -/
def pyIsAlpha (c : Char) : Bool :=
  decide ((65 ≤ c.toNat ∧ c.toNat ≤ 90) ∨ (97 ≤ c.toNat ∧ c.toNat ≤ 122))

/-- The ASCII whitespace characters removed by Python `str.strip()`:
space, tab, newline, vertical tab, form feed, carriage return. -/
def pyWhitespace (c : Char) : Bool :=
  decide (c.toNat = 32 ∨ c.toNat = 9 ∨ c.toNat = 10 ∨
    c.toNat = 11 ∨ c.toNat = 12 ∨ c.toNat = 13)

/-- Python `s.lower()` on a whole string. -/
def lowerStr (s : List Char) : List Char := s.map pyLower

/-- Python `s.strip()`: remove leading and trailing whitespace. -/
def strip (s : List Char) : List Char :=
  ((s.dropWhile pyWhitespace).reverse.dropWhile pyWhitespace).reverse

/-- Python `s.split(sep)` for a one-character separator `sep`:
`splitOnChar sep "a@b" = ["a", "b"]`, `splitOnChar sep "" = [""]`,
and adjacent separators produce empty parts, exactly as in Python. -/
def splitOnChar (sep : Char) : List Char → List (List Char)
  | [] => [[]]
  | c :: cs =>
    match splitOnChar sep cs with
    | [] => [[]]
    | w :: ws => if c = sep then [] :: w :: ws else (c :: w) :: ws

/-- Source: `extract_domain_from_email` (company_extraction.py, lines 8-23).
`email.lower().strip()`, raise `ValueError` when no `'@'` is present,
otherwise `email_lower.split('@')[-1]`.  The raise is modelled as `none`. -/
def extract_domain_from_email (email : List Char) : Option (List Char) :=
  let email_lower := strip (lowerStr email)
  if '@' ∈ email_lower then some ((splitOnChar '@' email_lower).getLastD [])
  else none

/-! ### Character-level lemmas for the ASCII model -/

theorem toNat_ofNat_valid (n : Nat) (h : n < 55296) : (Char.ofNat n).toNat = n := by
  rw [Char.ofNat, dif_pos (Or.inl h)]
  rfl

theorem pyLower_toNat (c : Char) :
    (pyLower c).toNat = if 65 ≤ c.toNat ∧ c.toNat ≤ 90 then c.toNat + 32 else c.toNat := by
  unfold pyLower
  by_cases h : 65 ≤ c.toNat ∧ c.toNat ≤ 90
  · rw [if_pos h, if_pos h, toNat_ofNat_valid _ (by omega)]
  · rw [if_neg h, if_neg h]

theorem pyUpper_toNat (c : Char) :
    (pyUpper c).toNat = if 97 ≤ c.toNat ∧ c.toNat ≤ 122 then c.toNat - 32 else c.toNat := by
  unfold pyUpper
  by_cases h : 97 ≤ c.toNat ∧ c.toNat ≤ 122
  · rw [if_pos h, if_pos h, toNat_ofNat_valid _ (by omega)]
  · rw [if_neg h, if_neg h]

theorem char_toNat_inj {c d : Char} (h : c.toNat = d.toNat) : c = d := by
  have := congrArg Char.ofNat h
  rwa [Char.ofNat_toNat, Char.ofNat_toNat] at this

/-- A character whose code is not in the lower-case range 97..122 is hit by
`pyLower` only from itself. -/
theorem pyLower_eq_fix {c t : Char} (ht : ¬(97 ≤ t.toNat ∧ t.toNat ≤ 122))
    (h : pyLower c = t) : c = t := by
  have hn := congrArg Char.toNat h
  rw [pyLower_toNat] at hn
  by_cases hc : 65 ≤ c.toNat ∧ c.toNat ≤ 90
  · rw [if_pos hc] at hn; omega
  · rw [if_neg hc] at hn; exact char_toNat_inj hn

/-- A character whose code is not in the upper-case range 65..90 is hit by
`pyUpper` only from itself. -/
theorem pyUpper_eq_fix {c t : Char} (ht : ¬(65 ≤ t.toNat ∧ t.toNat ≤ 90))
    (h : pyUpper c = t) : c = t := by
  have hn := congrArg Char.toNat h
  rw [pyUpper_toNat] at hn
  by_cases hc : 97 ≤ c.toNat ∧ c.toNat ≤ 122
  · rw [if_pos hc] at hn; omega
  · rw [if_neg hc] at hn; exact char_toNat_inj hn

theorem pyLower_idem (c : Char) : pyLower (pyLower c) = pyLower c := by
  unfold pyLower
  by_cases h : 65 ≤ c.toNat ∧ c.toNat ≤ 90
  · rw [if_pos h]
    have hv : (Char.ofNat (c.toNat + 32)).toNat = c.toNat + 32 :=
      toNat_ofNat_valid _ (by omega)
    rw [if_neg (by omega)]
  · rw [if_neg h, if_neg h]

theorem pyIsUpper_pyLower (c : Char) : pyIsUpper (pyLower c) = false := by
  unfold pyIsUpper
  rw [decide_eq_false_iff_not, pyLower_toNat]
  by_cases h : 65 ≤ c.toNat ∧ c.toNat ≤ 90
  · rw [if_pos h]; omega
  · rw [if_neg h]; omega

theorem pyWhitespace_pyLower (c : Char) : pyWhitespace (pyLower c) = pyWhitespace c := by
  unfold pyWhitespace
  have h := pyLower_toNat c
  by_cases hc : 65 ≤ c.toNat ∧ c.toNat ≤ 90
  · rw [if_pos hc] at h
    rw [decide_eq_decide]
    omega
  · rw [if_neg hc] at h
    rw [h]

theorem pyLower_at (t : Char) (ht : ¬(65 ≤ t.toNat ∧ t.toNat ≤ 90)) :
    pyLower t = t := by
  unfold pyLower
  rw [if_neg ht]

/-- `pyLower c = '@' ↔ c = '@'` and likewise for any character outside
both case ranges. -/
theorem pyLower_eq_iff {t : Char} (h1 : ¬(65 ≤ t.toNat ∧ t.toNat ≤ 90))
    (h2 : ¬(97 ≤ t.toNat ∧ t.toNat ≤ 122)) (c : Char) :
    pyLower c = t ↔ c = t := by
  constructor
  · exact pyLower_eq_fix h2
  · rintro rfl; exact pyLower_at _ h1

/-! ### Word segmenter -/

/-- Loop body of `split_camel_case` (company_extraction.py, lines 26-61).
`current` is the accumulated `current_word`.  The Python loop tests
`char.isupper() and i > 0`; the `i > 0` guard is realised by the caller
`split_camel_case`, which seeds `current` with the first character so that
this helper only ever sees positions `i ≥ 1`. -/
def camelGo (current : List Char) : List Char → List (List Char)
  | [] => if current = [] then [] else [lowerStr current]
  | c :: cs =>
    if pyIsUpper c then
      (if current = [] then [] else [lowerStr current]) ++ camelGo [c] cs
    else
      camelGo (current ++ [c]) cs

/-- Source: `split_camel_case` (company_extraction.py, lines 26-61).
Empty input returns `[]`; otherwise the first character always goes into
`current_word` (the loop's `i > 0` test fails at index 0). -/
def split_camel_case (text : List Char) : List (List Char) :=
  match text with
  | [] => []
  | c :: cs => camelGo [c] cs

/-- Source: the `common_suffixes` list of `split_concatenated_words`
(company_extraction.py, lines 79-83), in source order. -/
def common_suffixes : List (List Char) :=
  ["corp".toList, "corporation".toList, "inc".toList, "incorporated".toList,
   "llc".toList, "ltd".toList, "limited".toList,
   "tech".toList, "techs".toList, "solutions".toList, "systems".toList,
   "services".toList, "group".toList, "industries".toList,
   "engineering".toList, "eng".toList, "international".toList,
   "global".toList, "enterprises".toList, "ventures".toList]

/-- Source: the `common_prefixes` list of `split_concatenated_words`
(company_extraction.py, lines 86-89), in source order. -/
def common_prefixes : List (List Char) :=
  ["alpha".toList, "beta".toList, "gamma".toList, "delta".toList,
   "tech".toList, "digital".toList, "smart".toList, "global".toList,
   "international".toList, "advanced".toList, "premium".toList,
   "elite".toList, "pro".toList, "max".toList, "ultra".toList]

/-- Python `sorted(l, key=len, reverse=True)`: a stable sort, longest first.
`List.insertionSort` with this relation computes the same stable order. -/
def sortByLenDesc (l : List (List Char)) : List (List Char) :=
  List.insertionSort (fun a b => b.length ≤ a.length) l

def sortedSuffixes : List (List Char) := sortByLenDesc common_suffixes

def sortedPrefixes : List (List Char) := sortByLenDesc common_prefixes

/-- The suffix loop of `split_concatenated_words` (lines 94-99):
`for suffix in sorted(common_suffixes, key=len, reverse=True):` with the
guards `text_lower.endswith(suffix) and len(text_lower) > len(suffix)` and
`if prefix:`; on the first hit it returns `(text_lower[:-len(suffix)], suffix)`.
(`suffix <:+ text_lower` is `endswith`; the dictionary has no empty entry,
so `[:-len(suffix)]` is `take (length - len suffix)`.) -/
def firstSuffixMatch (text_lower : List Char) : List (List Char) → Option (List Char × List Char)
  | [] => none
  | s :: rest =>
    if s <:+ text_lower ∧ s.length < text_lower.length then
      if text_lower.take (text_lower.length - s.length) ≠ [] then
        some (text_lower.take (text_lower.length - s.length), s)
      else firstSuffixMatch text_lower rest
    else firstSuffixMatch text_lower rest

/-- The prefix loop of `split_concatenated_words` (lines 102-107), symmetric
to the suffix loop: `text_lower.startswith(prefix)`, remainder
`text_lower[len(prefix):]`. -/
def firstPrefixMatch (text_lower : List Char) : List (List Char) → Option (List Char × List Char)
  | [] => none
  | p :: rest =>
    if p <+: text_lower ∧ p.length < text_lower.length then
      if text_lower.drop p.length ≠ [] then
        some (p, text_lower.drop p.length)
      else firstPrefixMatch text_lower rest
    else firstPrefixMatch text_lower rest

/-- Source: `split_concatenated_words` (company_extraction.py, lines 64-116).
Suffix dictionary first, then prefix dictionary, then camel-case splitting
(on the original, un-lowered text, as in the source), then the fallback
`[text.lower()]`.  The source's local variables `text_lower` and
`camel_words` are inlined. -/
def split_concatenated_words (text : List Char) : List (List Char) :=
  match firstSuffixMatch (lowerStr text) sortedSuffixes with
  | some (p, s) => [p, s]
  | none =>
    match firstPrefixMatch (lowerStr text) sortedPrefixes with
    | some (p, s) => [p, s]
    | none =>
      if (split_camel_case text).length > 1 then split_camel_case text
      else [lowerStr text]

/-! ### Display-name formatter -/

/-- Source: the `tlds` list of `format_domain_as_display_name`
(company_extraction.py, line 137), in source order. -/
def tlds : List (List Char) :=
  [".com".toList, ".net".toList, ".org".toList, ".co".toList, ".io".toList,
   ".us".toList, ".uk".toList, ".in".toList, ".au".toList,
   ".co.uk".toList, ".com.au".toList]

def sortedTlds : List (List Char) := sortByLenDesc tlds

/-- The TLD loop of `format_domain_as_display_name` (lines 136-141):
`for tld in sorted(tlds, key=len, reverse=True): if name.lower().endswith(tld):
name = name[:-len(tld)]; break`.  The `break` makes the loop return at the
first hit, so at most one suffix is stripped; `endswith` is tested on the
lower-cased name while the slice is taken from the original. -/
def stripTldGo (name : List Char) : List (List Char) → List Char
  | [] => name
  | t :: rest =>
    if t <:+ lowerStr name then name.take (name.length - t.length)
    else stripTldGo name rest

def stripTld (name : List Char) : List Char := stripTldGo name sortedTlds

/-- Subdomain collapse (lines 144-148): `parts = name.split('.')`,
`if len(parts) > 1: name = parts[-1]`. -/
def collapseSub (name : List Char) : List Char :=
  let parts := splitOnChar '.' name
  if parts.length > 1 then parts.getLastD [] else name

/-- Python `str.capitalize()`: first character upper-cased, the rest
lower-cased. -/
def capitalize : List Char → List Char
  | [] => []
  | c :: cs => pyUpper c :: lowerStr cs

/-- Python `' '.join(ws)`. -/
def joinSpace : List (List Char) → List Char
  | [] => []
  | [w] => w
  | w :: ws => w ++ ' ' :: joinSpace ws

/-- The word-collection step of `format_domain_as_display_name`
(lines 150-165).  When the label contains `-` or `_` the separator is
`'-' if '-' in name else '_'`; the label is split on it and each non-empty
part (`if part:`) is segmented; otherwise the whole label is segmented. -/
def displayWords (name : List Char) : List (List Char) :=
  if '-' ∈ name ∨ '_' ∈ name then
    let sep := if '-' ∈ name then '-' else '_'
    (((splitOnChar sep name).filter (fun part => part ≠ [])).map
      split_concatenated_words).flatten
  else split_concatenated_words name

/-- Source: `format_domain_as_display_name` (company_extraction.py,
lines 119-169): TLD strip, subdomain collapse, separator-aware
segmentation, then `' '.join(word.capitalize() for word in words if word)`
(the join expression is textually identical in both branches of the
source, so it is factored out here). -/
def format_domain_as_display_name (domain : List Char) : List Char :=
  let name := collapseSub (stripTld domain)
  let words := displayWords name
  joinSpace ((words.filter (fun w => w ≠ [])).map capitalize)

/-! ### Company resolver -/

/-- The dictionary returned by `extract_company_from_email`
(company_extraction.py, lines 186-192). -/
structure CompanyInfo where
  domain : List Char
  normalized_company : List Char
  display_name : List Char
deriving DecidableEq, Repr

/-- Source: `extract_company_from_email` (company_extraction.py,
lines 172-192).  A `ValueError` from the extractor propagates (`none`);
otherwise the record is built from the domain. -/
def extract_company_from_email (email : List Char) : Option CompanyInfo :=
  match extract_domain_from_email email with
  | none => none
  | some domain =>
    some { domain := domain, normalized_company := domain,
           display_name := format_domain_as_display_name domain }

/-- Source: `normalize_company_domain` (company_extraction.py,
lines 195-205): `domain.lower().strip()`. -/
def normalize_company_domain (domain : List Char) : List Char :=
  strip (lowerStr domain)

/-- Modelled from the spec (4.1): the substring strictly after the last
`'@'` occurrence.  Used to compare the source's `split('@')[-1]` against
the spec's wording; everything before and including the last `'@'` is
discarded. -/
def lastSplit (sep : Char) (l : List Char) : List Char :=
  (l.reverse.takeWhile (fun c => c ≠ sep)).reverse

/-- Modelled from the spec (4.1): trim the input, take the substring
strictly after the last `'@'`, lower-case it. -/
def specExtractDomain (email : List Char) : List Char :=
  lowerStr (lastSplit '@' (strip email))

/-! ### Generic list lemmas -/

theorem takeWhile_all {α} {p : α → Bool} :
    ∀ l : List α, (∀ a ∈ l, p a = true) → l.takeWhile p = l
  | [], _ => rfl
  | a :: l, h => by
    rw [List.takeWhile_cons_of_pos (h a (List.mem_cons_self a l)),
      takeWhile_all l (fun b hb => h b (List.mem_cons_of_mem _ hb))]

theorem takeWhile_append_last_neg {α} {p : α → Bool} {x : α} (hx : p x = false) :
    ∀ l : List α, (l ++ [x]).takeWhile p = l.takeWhile p
  | [] => by
    have hx' : ¬ p x = true := by rw [hx]; exact Bool.false_ne_true
    rw [List.nil_append, List.takeWhile_cons_of_neg hx', List.takeWhile_nil]
  | a :: l => by
    by_cases ha : p a
    · rw [List.cons_append, List.takeWhile_cons_of_pos ha,
        List.takeWhile_cons_of_pos ha, takeWhile_append_last_neg hx l]
    · rw [List.cons_append, List.takeWhile_cons_of_neg ha,
        List.takeWhile_cons_of_neg ha]

theorem takeWhile_append_stop {α} {p : α → Bool} {x : α} (hx : p x = false) :
    ∀ l₁ l₂ : List α, (∀ a ∈ l₁, p a = true) → (l₁ ++ x :: l₂).takeWhile p = l₁
  | [], l₂, _ => by
    have hx' : ¬ p x = true := by rw [hx]; exact Bool.false_ne_true
    rw [List.nil_append, List.takeWhile_cons_of_neg hx']
  | a :: l₁, l₂, h => by
    rw [List.cons_append, List.takeWhile_cons_of_pos (h a (List.mem_cons_self a l₁)),
      takeWhile_append_stop hx l₁ l₂ (fun b hb => h b (List.mem_cons_of_mem _ hb))]

theorem takeWhile_append_of_bad {α} {p : α → Bool} :
    ∀ l₁ l₂ : List α, (∃ a ∈ l₁, p a = false) → (l₁ ++ l₂).takeWhile p = l₁.takeWhile p
  | [], _, h => by simp at h
  | a :: l₁, l₂, h => by
    by_cases ha : p a
    · obtain ⟨b, hb, hpb⟩ := h
      rcases List.mem_cons.mp hb with rfl | hb'
      · rw [ha] at hpb; cases hpb
      · rw [List.cons_append, List.takeWhile_cons_of_pos ha,
          List.takeWhile_cons_of_pos ha, takeWhile_append_of_bad l₁ l₂ ⟨b, hb', hpb⟩]
    · rw [List.cons_append, List.takeWhile_cons_of_neg ha,
        List.takeWhile_cons_of_neg ha]

theorem dropWhile_append_mid {α} {p : α → Bool} {x : α} (hx : p x = false) :
    ∀ l₁ l₂ : List α, (l₁ ++ x :: l₂).dropWhile p = l₁.dropWhile p ++ x :: l₂
  | [], l₂ => by
    have hx' : ¬ p x = true := by rw [hx]; exact Bool.false_ne_true
    rw [List.nil_append, List.dropWhile_cons_of_neg hx', List.dropWhile_nil, List.nil_append]
  | a :: l₁, l₂ => by
    by_cases ha : p a
    · rw [List.cons_append, List.dropWhile_cons_of_pos ha,
        List.dropWhile_cons_of_pos ha, dropWhile_append_mid hx l₁ l₂]
    · rw [List.cons_append, List.dropWhile_cons_of_neg ha,
        List.dropWhile_cons_of_neg ha, List.cons_append]

theorem mem_dropWhile_of_neg {α} {p : α → Bool} {a : α} (hpa : p a = false) :
    ∀ {l : List α}, a ∈ l → a ∈ l.dropWhile p
  | b :: l, h => by
    by_cases hb : p b
    · rw [List.dropWhile_cons_of_pos hb]
      rcases List.mem_cons.mp h with rfl | h'
      · rw [hpa] at hb; cases hb
      · exact mem_dropWhile_of_neg hpa h'
    · rw [List.dropWhile_cons_of_neg hb]; exact h

theorem dropWhile_head_neg {α} {p : α → Bool} {l : List α} {c : α} {t : List α}
    (h : l.dropWhile p = c :: t) : p c = false := by
  have := List.head?_dropWhile_not p l
  rw [h] at this
  simpa using this

theorem getLastD_mem_self {α} : ∀ {l : List α} (d : α), l ≠ [] → l.getLastD d ∈ l
  | [], _, h => absurd rfl h
  | x :: xs, d, _ => by
    rw [List.getLastD_cons]; exact List.getLastD_mem_cons xs x

theorem getLastD_irrel {α} : ∀ {l : List α}, l ≠ [] → ∀ d d' : α, l.getLastD d = l.getLastD d'
  | [], h, _, _ => absurd rfl h
  | _ :: _, _, d, d' => by rw [List.getLastD_cons, List.getLastD_cons]

/-! ### Lemmas about `splitOnChar` -/

theorem splitOnChar_ne_nil (sep : Char) : ∀ l : List Char, splitOnChar sep l ≠ []
  | [] => by simp [splitOnChar]
  | c :: cs => by
    unfold splitOnChar
    cases h : splitOnChar sep cs with
    | nil => simp
    | cons w ws => by_cases hc : c = sep <;> simp [hc]

theorem splitOnChar_cons_eq (sep c : Char) (cs : List Char) {w : List Char}
    {ws : List (List Char)} (h : splitOnChar sep cs = w :: ws) :
    splitOnChar sep (c :: cs) =
      if c = sep then [] :: w :: ws else (c :: w) :: ws := by
  unfold splitOnChar
  rw [h]

theorem splitOnChar_of_not_mem (sep : Char) :
    ∀ {l : List Char}, sep ∉ l → splitOnChar sep l = [l]
  | [], _ => rfl
  | c :: cs, h => by
    have hc : c ≠ sep := fun hcs => h (hcs ▸ List.mem_cons_self c cs)
    have hcs : sep ∉ cs := fun hm => h (List.mem_cons_of_mem _ hm)
    rw [splitOnChar_cons_eq sep c cs (splitOnChar_of_not_mem sep hcs), if_neg hc]

theorem splitOnChar_dest (sep : Char) (l : List Char) :
    ∃ w ws, splitOnChar sep l = w :: ws := by
  cases hx : splitOnChar sep l with
  | nil => exact absurd hx (splitOnChar_ne_nil sep l)
  | cons a b => exact ⟨a, b, rfl⟩

theorem splitOnChar_eq_single (sep : Char) :
    ∀ {l w : List Char}, splitOnChar sep l = [w] → sep ∉ l ∧ w = l
  | [], w, h => by
    simp only [splitOnChar] at h
    injection h with h1 _
    exact ⟨List.not_mem_nil sep, h1.symm⟩
  | c :: cs, w, h => by
    obtain ⟨w', ws', hR⟩ := splitOnChar_dest sep cs
    rw [splitOnChar_cons_eq sep c cs hR] at h
    by_cases hc : c = sep
    · rw [if_pos hc] at h; cases h
    · rw [if_neg hc] at h
      injection h with hw hws
      subst hws
      obtain ⟨hsep, hwcs⟩ := splitOnChar_eq_single sep hR
      subst hwcs
      refine ⟨?_, hw.symm⟩
      intro hm
      rcases List.mem_cons.mp hm with h' | h'
      · exact hc h'.symm
      · exact hsep h'


/-- Every part produced by `splitOnChar` is separator-free and draws its
characters from the input. -/
theorem splitOnChar_parts (sep : Char) :
    ∀ (l : List Char) (w : List Char), w ∈ splitOnChar sep l →
      sep ∉ w ∧ ∀ c ∈ w, c ∈ l
  | [], w, h => by
    simp only [splitOnChar, List.mem_singleton] at h
    subst h
    exact ⟨List.not_mem_nil sep, fun c hc => absurd hc (List.not_mem_nil c)⟩
  | c :: cs, w, h => by
    obtain ⟨w', ws', hR⟩ := splitOnChar_dest sep cs
    rw [splitOnChar_cons_eq sep c cs hR] at h
    by_cases hc : c = sep
    · rw [if_pos hc] at h
      rcases List.mem_cons.mp h with rfl | h'
      · exact ⟨List.not_mem_nil sep, fun c hc => absurd hc (List.not_mem_nil c)⟩
      · have := splitOnChar_parts sep cs w (hR ▸ h')
        exact ⟨this.1, fun a ha => List.mem_cons_of_mem _ (this.2 a ha)⟩
    · rw [if_neg hc] at h
      rcases List.mem_cons.mp h with rfl | h'
      · have hw' : w' ∈ splitOnChar sep cs := by
          rw [hR]; exact List.mem_cons_self _ _
        have := splitOnChar_parts sep cs w' hw'
        constructor
        · intro hm
          rcases List.mem_cons.mp hm with h'' | h''
          · exact hc h''.symm
          · exact this.1 h''
        · intro a ha
          rcases List.mem_cons.mp ha with rfl | h''
          · exact List.mem_cons_self _ _
          · exact List.mem_cons_of_mem _ (this.2 a h'')
      · have hw : w ∈ splitOnChar sep cs := by
          rw [hR]; exact List.mem_cons_of_mem _ h'
        have := splitOnChar_parts sep cs w hw
        exact ⟨this.1, fun a ha => List.mem_cons_of_mem _ (this.2 a ha)⟩

/-- Every non-separator character of the input lands in some part. -/
theorem splitOnChar_covers (sep : Char) :
    ∀ (l : List Char) (c₀ : Char), c₀ ∈ l → c₀ ≠ sep →
      ∃ w ∈ splitOnChar sep l, c₀ ∈ w
  | [], c₀, h, _ => absurd h (List.not_mem_nil c₀)
  | c :: cs, c₀, h, hne => by
    obtain ⟨w', ws', hR⟩ := splitOnChar_dest sep cs
    rcases List.mem_cons.mp h with rfl | h'
    · rw [splitOnChar_cons_eq sep c₀ cs hR, if_neg hne]
      exact ⟨c₀ :: w', List.mem_cons_self _ _, List.mem_cons_self _ _⟩
    · obtain ⟨w, hw, hcw⟩ := splitOnChar_covers sep cs c₀ h' hne
      rw [splitOnChar_cons_eq sep c cs hR]
      by_cases hc : c = sep
      · rw [if_pos hc]
        exact ⟨w, List.mem_cons_of_mem _ (hR ▸ hw), hcw⟩
      · rw [if_neg hc]
        rw [hR] at hw
        rcases List.mem_cons.mp hw with rfl | hw'
        · exact ⟨c :: w, List.mem_cons_self _ _, List.mem_cons_of_mem _ hcw⟩
        · exact ⟨w, List.mem_cons_of_mem _ hw', hcw⟩

/-- Bridge between the source's `split(sep)[-1]` and the spec's
"substring strictly after the last separator". -/
theorem getLastD_splitOnChar (sep : Char) :
    ∀ l : List Char, (splitOnChar sep l).getLastD [] = lastSplit sep l
  | [] => rfl
  | c :: cs => by
    obtain ⟨w, ws, hR⟩ := splitOnChar_dest sep cs
    have IH := getLastD_splitOnChar sep cs
    rw [splitOnChar_cons_eq sep c cs hR]
    have hrev : (c :: cs).reverse = cs.reverse ++ [c] := by
      rw [List.reverse_cons]
    by_cases hc : c = sep
    · rw [if_pos hc, List.getLastD_cons]
      unfold lastSplit
      rw [hrev, hc, takeWhile_append_last_neg (by simp)]
      calc (w :: ws).getLastD [] = lastSplit sep cs := by rw [← hR]; exact IH
        _ = (cs.reverse.takeWhile (fun x => x ≠ sep)).reverse := rfl
    · rw [if_neg hc]
      cases ws with
      | nil =>
        obtain ⟨hsep, hwcs⟩ := splitOnChar_eq_single sep hR
        have hall : ∀ a ∈ cs.reverse ++ [c], (fun x => decide (x ≠ sep)) a = true := by
          intro a ha
          rcases List.mem_append.mp ha with ha' | ha'
          · have hacs : a ∈ cs := List.mem_reverse.mp ha'
            simp only [decide_eq_true_eq]
            exact fun hasep => hsep (hasep ▸ hacs)
          · have : a = c := List.mem_singleton.mp ha'
            subst this
            simp only [decide_eq_true_eq]
            exact fun hasep => hc hasep
        unfold lastSplit
        rw [hrev, takeWhile_all (cs.reverse ++ [c]) hall, List.reverse_append,
          List.reverse_reverse, List.reverse_singleton, List.singleton_append,
          List.getLastD_cons, List.getLastD_nil, hwcs]
      | cons w2 ws2 =>
        have hsepcs : sep ∈ cs := by
          by_contra hn
          rw [splitOnChar_of_not_mem sep hn] at hR
          cases hR
        have hL : ((c :: w) :: w2 :: ws2).getLastD ([] : List Char) =
            (w :: w2 :: ws2).getLastD ([] : List Char) :=
          calc ((c :: w) :: w2 :: ws2).getLastD ([] : List Char)
              = (w2 :: ws2).getLastD (c :: w) := List.getLastD_cons _ _ _
            _ = (w2 :: ws2).getLastD w :=
                getLastD_irrel (List.cons_ne_nil w2 ws2) _ _
            _ = (w :: w2 :: ws2).getLastD ([] : List Char) :=
                (List.getLastD_cons _ _ _).symm
        have IH' : (w :: w2 :: ws2).getLastD ([] : List Char) = lastSplit sep cs := by
          rw [← hR]; exact IH
        rw [hL, IH']
        unfold lastSplit
        rw [hrev, takeWhile_append_of_bad cs.reverse [c]
          ⟨sep, List.mem_reverse.mpr hsepcs, by simp⟩]

theorem mem_takeWhile_pred {α} {p : α → Bool} {a : α} :
    ∀ {l : List α}, a ∈ l.takeWhile p → p a = true
  | b :: l, h => by
    by_cases hb : p b
    · rw [List.takeWhile_cons_of_pos hb] at h
      rcases List.mem_cons.mp h with rfl | h'
      · exact hb
      · exact mem_takeWhile_pred h'
    · rw [List.takeWhile_cons_of_neg hb] at h
      cases h

/-! ### Lemmas about strip and the extractor -/

theorem mem_strip {a : Char} (ha : pyWhitespace a = false) {l : List Char}
    (h : a ∈ l) : a ∈ strip l := by
  unfold strip
  rw [List.mem_reverse]
  exact mem_dropWhile_of_neg ha (List.mem_reverse.mpr (mem_dropWhile_of_neg ha h))

theorem strip_subset {a : Char} {l : List Char} (h : a ∈ strip l) : a ∈ l := by
  unfold strip at h
  rw [List.mem_reverse] at h
  have h1 := List.dropWhile_subset (l := (l.dropWhile pyWhitespace).reverse) pyWhitespace h
  rw [List.mem_reverse] at h1
  exact List.dropWhile_subset pyWhitespace h1

theorem strip_reverse (l : List Char) :
    (strip l).reverse = ((l.dropWhile pyWhitespace).reverse).dropWhile pyWhitespace := by
  unfold strip
  rw [List.reverse_reverse]

/-- The presence of `'@'` is invariant under the lower-and-strip
preprocessing of the extractor. -/
theorem at_mem_preprocess (email : List Char) :
    '@' ∈ strip (lowerStr email) ↔ '@' ∈ email := by
  constructor
  · intro h
    have h1 := strip_subset h
    obtain ⟨c, hc, hlc⟩ := List.mem_map.mp h1
    have : c = '@' := pyLower_eq_fix (by decide) hlc
    exact this ▸ hc
  · intro h
    have h1 : '@' ∈ lowerStr email :=
      List.mem_map.mpr ⟨'@', h, pyLower_at '@' (by decide)⟩
    exact mem_strip (by decide) h1

theorem extract_eq_some_of_at {email : List Char} (h : '@' ∈ email) :
    extract_domain_from_email email =
      some (lastSplit '@' (strip (lowerStr email))) := by
  unfold extract_domain_from_email
  rw [if_pos ((at_mem_preprocess email).mpr h), getLastD_splitOnChar]

theorem extract_eq_none_iff (email : List Char) :
    extract_domain_from_email email = none ↔ '@' ∉ email := by
  unfold extract_domain_from_email
  by_cases h : '@' ∈ strip (lowerStr email)
  · rw [if_pos h]
    simp only [reduceCtorEq, false_iff]
    exact fun hn => hn ((at_mem_preprocess email).mp h)
  · rw [if_neg h]
    simp only [true_iff]
    exact fun hm => h ((at_mem_preprocess email).mpr hm)

theorem extract_some_inv {email d : List Char}
    (h : extract_domain_from_email email = some d) :
    '@' ∈ email ∧ d = lastSplit '@' (strip (lowerStr email)) := by
  by_cases hm : '@' ∈ email
  · have := extract_eq_some_of_at hm
    rw [this] at h
    exact ⟨hm, (Option.some.injEq _ _ ▸ h).symm⟩
  · rw [(extract_eq_none_iff email).mpr hm] at h
    cases h

/-! ### Commuting `lowerStr` with strip and lastSplit (for C2) -/

theorem pyWhitespace_comp : pyWhitespace ∘ pyLower = pyWhitespace := by
  funext c
  exact pyWhitespace_pyLower c

theorem strip_lowerStr (l : List Char) : strip (lowerStr l) = lowerStr (strip l) := by
  unfold strip lowerStr
  rw [List.dropWhile_map, pyWhitespace_comp, ← List.map_reverse,
    List.dropWhile_map, pyWhitespace_comp, ← List.map_reverse]

theorem ne_at_comp :
    ((fun c : Char => decide (c ≠ '@')) ∘ pyLower) = (fun c : Char => decide (c ≠ '@')) := by
  funext c
  show decide (pyLower c ≠ '@') = decide (c ≠ '@')
  rw [decide_eq_decide]
  exact not_congr (pyLower_eq_iff (by decide) (by decide) c)

theorem lastSplit_lowerStr (m : List Char) :
    lastSplit '@' (lowerStr m) = lowerStr (lastSplit '@' m) := by
  unfold lastSplit lowerStr
  rw [← List.map_reverse, List.takeWhile_map, ne_at_comp, ← List.map_reverse]

theorem specExtractDomain_eq (email : List Char) :
    lastSplit '@' (strip (lowerStr email)) = specExtractDomain email := by
  unfold specExtractDomain
  rw [strip_lowerStr, lastSplit_lowerStr]

theorem lastSplit_no_sep (sep : Char) (l : List Char) : sep ∉ lastSplit sep l := by
  unfold lastSplit
  rw [List.mem_reverse]
  intro h
  have := mem_takeWhile_pred h
  simp at this

theorem lastSplit_subset {sep : Char} {l : List Char} {a : Char}
    (h : a ∈ lastSplit sep l) : a ∈ l := by
  unfold lastSplit at h
  rw [List.mem_reverse] at h
  exact List.mem_reverse.mp (List.takeWhile_subset _ h)

/-- Characters of an extracted domain are fixed points of lower-casing. -/
theorem extract_domain_chars {email d : List Char}
    (h : extract_domain_from_email email = some d) :
    ∀ a ∈ d, pyLower a = a := by
  obtain ⟨-, hd⟩ := extract_some_inv h
  subst hd
  intro a ha
  have h2 : a ∈ lowerStr email := strip_subset (lastSplit_subset ha)
  obtain ⟨c, -, hc⟩ := List.mem_map.mp h2
  rw [← hc, pyLower_idem]

/-- An extracted domain never contains an at-sign. -/
theorem extract_domain_no_at {email d : List Char}
    (h : extract_domain_from_email email = some d) : '@' ∉ d := by
  obtain ⟨-, hd⟩ := extract_some_inv h
  subst hd
  exact lastSplit_no_sep '@' _

/-- The last character of an extracted domain is not whitespace
(it survived the right strip). -/
theorem extract_domain_reverse_head {email d : List Char}
    (h : extract_domain_from_email email = some d)
    {c : Char} {t : List Char} (hrv : d.reverse = c :: t) :
    pyWhitespace c = false := by
  obtain ⟨-, hd⟩ := extract_some_inv h
  have hdr : d.reverse =
      ((strip (lowerStr email)).reverse).takeWhile (fun x => decide (x ≠ '@')) := by
    rw [hd]; unfold lastSplit; rw [List.reverse_reverse]
  rw [hdr] at hrv
  have hh := List.head?_takeWhile (fun x => decide (x ≠ '@'))
    ((strip (lowerStr email)).reverse)
  rw [hrv] at hh
  cases hE : (strip (lowerStr email)).reverse with
  | nil => rw [hE] at hh; simp [Option.filter] at hh
  | cons e es =>
    rw [hE] at hh
    simp only [List.head?_cons, Option.filter] at hh
    have hce : c = e := by
      by_cases hp : (fun x => decide (x ≠ '@')) e
      · simp only [hp, if_true, Option.some.injEq] at hh
        exact hh
      · simp only [hp, if_false, Bool.false_eq_true] at hh
        cases hh
    rw [strip_reverse] at hE
    have := dropWhile_head_neg hE
    rw [hce]
    exact this

/-- C9: extract_domain is idempotent on its own output: whenever it returns a
domain d, extracting again from "x@" ++ d returns d. -/
theorem claim_C9_extract_idempotent (email d : List Char)
    (h : extract_domain_from_email email = some d) :
    extract_domain_from_email ('x' :: '@' :: d) = some d := by
  have hfix : ∀ a ∈ d, pyLower a = a := extract_domain_chars h
  have hnoat : '@' ∉ d := extract_domain_no_at h
  have hmapd : List.map pyLower d = d :=
    (List.map_congr_left fun a ha => hfix a ha).trans (List.map_id d)
  have hmap : lowerStr ('x' :: '@' :: d) = 'x' :: '@' :: d := by
    unfold lowerStr
    rw [List.map_cons, List.map_cons, hmapd]
    norm_num [show pyLower 'x' = 'x' from by decide, show pyLower '@' = '@' from by decide]
  have hrv : ('x' :: '@' :: d).reverse = d.reverse ++ ['@', 'x'] := by
    rw [List.reverse_cons, List.reverse_cons, List.append_assoc]
    rfl
  have hdrop : (d.reverse ++ ['@', 'x']).dropWhile pyWhitespace = d.reverse ++ ['@', 'x'] := by
    cases hdr : d.reverse with
    | nil => rw [List.nil_append, List.dropWhile_cons_of_neg (by decide)]
    | cons c t =>
      have hcws : pyWhitespace c = false :=
        extract_domain_reverse_head h hdr
      rw [List.cons_append, List.dropWhile_cons_of_neg (by rw [hcws]; exact Bool.false_ne_true)]
  have hsp : strip ('x' :: '@' :: d) = 'x' :: '@' :: d := by
    unfold strip
    rw [List.dropWhile_cons_of_neg (by decide), hrv, hdrop, List.reverse_append,
      List.reverse_reverse]
    rfl
  have hpass : ∀ a ∈ d.reverse, (fun x => decide (x ≠ '@')) a = true := by
    intro a ha
    have : a ∈ d := List.mem_reverse.mp ha
    simp only [decide_eq_true_eq]
    exact fun heq => hnoat (heq ▸ this)
  have hat : '@' ∈ ('x' :: '@' :: d) :=
    List.mem_cons_of_mem _ (List.mem_cons_self _ _)
  rw [extract_eq_some_of_at hat, hmap, hsp]
  unfold lastSplit
  rw [hrv, takeWhile_append_stop (by decide) d.reverse ['x'] hpass, List.reverse_reverse]

/-- C9 witness at a concrete input. -/
theorem claim_C9_witness :
    extract_domain_from_email ("a@b.com".toList) = some ("b.com".toList) ∧
    extract_domain_from_email ('x' :: '@' :: "b.com".toList) =
      some ("b.com".toList) :=
  ⟨by decide, claim_C9_extract_idempotent ("a@b.com".toList) ("b.com".toList) (by decide)⟩

/-- C2: for every input containing at least one at-sign, extract_domain
returns the substring strictly after the last at-sign of the
whitespace-trimmed input, lower-cased (`specExtractDomain`); in
particular on "John.Doe@ACMEcorp.COM" it returns "acmecorp.com". -/
theorem claim_C2_extract_last_at (email : List Char) (h : '@' ∈ email) :
    extract_domain_from_email email = some (specExtractDomain email) ∧
    extract_domain_from_email ("John.Doe@ACMEcorp.COM".toList) =
      some ("acmecorp.com".toList) := by
  refine ⟨?_, by decide⟩
  rw [extract_eq_some_of_at h, specExtractDomain_eq]

/-- C2 witness at the spec's concrete input. -/
theorem claim_C2_witness :
    '@' ∈ ("John.Doe@ACMEcorp.COM".toList) ∧
    extract_domain_from_email ("John.Doe@ACMEcorp.COM".toList) =
      some (specExtractDomain ("John.Doe@ACMEcorp.COM".toList)) :=
  ⟨by decide, (claim_C2_extract_last_at ("John.Doe@ACMEcorp.COM".toList) (by decide)).1⟩

/-- C3: extract_domain fails (raises, modelled as none) exactly when the
input has no at-sign, and the resolver succeeds exactly when the input has
an at-sign (segmentation and formatting are total and add no failure). -/
theorem claim_C3_error_iff (email : List Char) :
    (extract_domain_from_email email = none ↔ '@' ∉ email) ∧
    ((extract_company_from_email email).isSome ↔ '@' ∈ email) := by
  refine ⟨extract_eq_none_iff email, ?_⟩
  unfold extract_company_from_email
  by_cases h : '@' ∈ email
  · rw [extract_eq_some_of_at h]
    simp [h]
  · rw [(extract_eq_none_iff email).mpr h]
    simp [h]

/-- After lower-and-strip preprocessing, the extractor's last-split on an
input of the shape `loc ++ "@" ++ dom` recovers `dom`, provided `dom` has no
at-sign and ends in a non-whitespace character. -/
theorem lastSplit_strip_append (loc dom : List Char) {c : Char} {t : List Char}
    (hrd : dom.reverse = c :: t) (hcws : pyWhitespace c = false)
    (hnd : '@' ∉ dom) :
    lastSplit '@' (strip (loc ++ '@' :: dom)) = dom := by
  have h2 : (loc ++ '@' :: dom).dropWhile pyWhitespace
      = loc.dropWhile pyWhitespace ++ '@' :: dom :=
    dropWhile_append_mid (by decide) loc dom
  have h3 : (loc.dropWhile pyWhitespace ++ '@' :: dom).reverse
      = dom.reverse ++ '@' :: (loc.dropWhile pyWhitespace).reverse := by
    rw [List.reverse_append, List.reverse_cons, List.append_assoc]
    rfl
  have hpass : ∀ a ∈ dom.reverse, (fun x => decide (x ≠ '@')) a = true := by
    intro a ha
    simp only [decide_eq_true_eq]
    exact fun heq => hnd (heq ▸ List.mem_reverse.mp ha)
  unfold lastSplit
  rw [strip_reverse, h2, h3, hrd, List.cons_append,
    List.dropWhile_cons_of_neg (by rw [hcws]; exact Bool.false_ne_true),
    ← List.cons_append, ← hrd,
    takeWhile_append_stop (by decide) dom.reverse _ hpass, List.reverse_reverse]

/-- C1: every email whose domain part is "acmecorp.com" preceded by at least
one at-sign resolves to the record with domain "acmecorp.com", normalized
key equal to that domain, and display name format_display_name of that
domain, which is "Acme Corp"; in particular "a@acmecorp.com" resolves so. -/
theorem claim_C1_resolver_acmecorp (loc : List Char) :
    extract_company_from_email (loc ++ '@' :: ("acmecorp.com".toList)) =
      some { domain := "acmecorp.com".toList,
             normalized_company := "acmecorp.com".toList,
             display_name := format_domain_as_display_name ("acmecorp.com".toList) } ∧
    format_domain_as_display_name ("acmecorp.com".toList) = "Acme Corp".toList ∧
    extract_company_from_email ("a@acmecorp.com".toList) =
      some { domain := "acmecorp.com".toList,
             normalized_company := "acmecorp.com".toList,
             display_name := "Acme Corp".toList } := by
  refine ⟨?_, by decide, by decide⟩
  have hat : '@' ∈ loc ++ '@' :: ("acmecorp.com".toList) :=
    List.mem_append.mpr (Or.inr (List.mem_cons_self _ _))
  have hmap2 : List.map pyLower ('@' :: ("acmecorp.com".toList))
      = '@' :: ("acmecorp.com".toList) := by decide
  have h1 : lowerStr (loc ++ '@' :: ("acmecorp.com".toList))
      = lowerStr loc ++ '@' :: ("acmecorp.com".toList) := by
    unfold lowerStr
    rw [List.map_append, hmap2]
  have hext : extract_domain_from_email (loc ++ '@' :: ("acmecorp.com".toList))
      = some ("acmecorp.com".toList) := by
    rw [extract_eq_some_of_at hat, h1,
      lastSplit_strip_append (lowerStr loc) ("acmecorp.com".toList)
        (c := 'm') (t := "oc.procemca".toList) (by decide) (by decide) (by decide)]
  unfold extract_company_from_email
  rw [hext]

/-! ### Segmenter lemmas -/

theorem camelGo_flatten : ∀ (rest current : List Char),
    (camelGo current rest).flatten = lowerStr (current ++ rest)
  | [], current => by
    unfold camelGo
    by_cases h : current = []
    · rw [if_pos h, h]; rfl
    · rw [if_neg h, List.append_nil]
      simp [List.flatten]
  | c :: cs, current => by
    unfold camelGo
    by_cases hu : pyIsUpper c
    · rw [if_pos hu, List.flatten_append, camelGo_flatten cs [c]]
      by_cases h : current = []
      · rw [if_pos h, h]; rfl
      · rw [if_neg h]
        show lowerStr current ++ [] ++ lowerStr ([c] ++ cs) = lowerStr (current ++ c :: cs)
        rw [List.append_nil]
        unfold lowerStr
        rw [← List.map_append]
        rfl
    · rw [if_neg hu, camelGo_flatten cs (current ++ [c]), List.append_assoc]
      rfl

theorem camelGo_no_nil : ∀ (rest current : List Char), [] ∉ camelGo current rest
  | [], current => by
    unfold camelGo
    by_cases h : current = []
    · rw [if_pos h]; exact List.not_mem_nil []
    · rw [if_neg h]
      intro hm
      have := List.mem_singleton.mp hm
      exact h (List.map_eq_nil_iff.mp this.symm)
  | c :: cs, current => by
    unfold camelGo
    by_cases hu : pyIsUpper c
    · rw [if_pos hu]
      intro hm
      rcases List.mem_append.mp hm with hm' | hm'
      · by_cases h : current = []
        · rw [if_pos h] at hm'; exact List.not_mem_nil [] hm'
        · rw [if_neg h] at hm'
          have := List.mem_singleton.mp hm'
          exact h (List.map_eq_nil_iff.mp this.symm)
      · exact camelGo_no_nil cs [c] hm'
    · rw [if_neg hu]
      exact camelGo_no_nil cs (current ++ [c])

theorem split_camel_flatten (text : List Char) :
    (split_camel_case text).flatten = lowerStr text := by
  cases text with
  | nil => rfl
  | cons c cs =>
    unfold split_camel_case
    exact camelGo_flatten cs [c]

theorem split_camel_no_nil (text : List Char) : [] ∉ split_camel_case text := by
  cases text with
  | nil => exact List.not_mem_nil []
  | cons c cs => exact camelGo_no_nil cs [c]

theorem firstSuffixMatch_inv {tl : List Char} :
    ∀ {L : List (List Char)} {p s : List Char},
      firstSuffixMatch tl L = some (p, s) →
      s ∈ L ∧ (s <:+ tl) ∧ s.length < tl.length ∧
        p = tl.take (tl.length - s.length)
  | [], p, s, h => by cases h
  | u :: rest, p, s, h => by
    unfold firstSuffixMatch at h
    by_cases hc : u <:+ tl ∧ u.length < tl.length
    · rw [if_pos hc] at h
      by_cases hp : tl.take (tl.length - u.length) ≠ []
      · rw [if_pos hp] at h
        injection h with h'
        injection h' with h1 h2
        subst h2
        exact ⟨List.mem_cons_self _ _, hc.1, hc.2, h1.symm⟩
      · rw [if_neg hp] at h
        have := firstSuffixMatch_inv h
        exact ⟨List.mem_cons_of_mem _ this.1, this.2.1, this.2.2.1, this.2.2.2⟩
    · rw [if_neg hc] at h
      have := firstSuffixMatch_inv h
      exact ⟨List.mem_cons_of_mem _ this.1, this.2.1, this.2.2.1, this.2.2.2⟩

theorem firstPrefixMatch_inv {tl : List Char} :
    ∀ {L : List (List Char)} {p s : List Char},
      firstPrefixMatch tl L = some (p, s) →
      p ∈ L ∧ (p <+: tl) ∧ p.length < tl.length ∧ s = tl.drop p.length
  | [], p, s, h => by cases h
  | u :: rest, p, s, h => by
    unfold firstPrefixMatch at h
    by_cases hc : u <+: tl ∧ u.length < tl.length
    · rw [if_pos hc] at h
      by_cases hp : tl.drop u.length ≠ []
      · rw [if_pos hp] at h
        injection h with h'
        injection h' with h1 h2
        subst h1
        exact ⟨List.mem_cons_self _ _, hc.1, hc.2, h2.symm⟩
      · rw [if_neg hp] at h
        have := firstPrefixMatch_inv h
        exact ⟨List.mem_cons_of_mem _ this.1, this.2.1, this.2.2.1, this.2.2.2⟩
    · rw [if_neg hc] at h
      have := firstPrefixMatch_inv h
      exact ⟨List.mem_cons_of_mem _ this.1, this.2.1, this.2.2.1, this.2.2.2⟩

/-- On a dictionary sorted longest-first, the suffix loop succeeds whenever
some entry matches, and the entry it picks is at least as long as any
matching entry. -/
theorem firstSuffixMatch_longest {tl : List Char} :
    ∀ {L : List (List Char)},
      L.Pairwise (fun a b => b.length ≤ a.length) →
      ∀ {s : List Char}, s ∈ L → (s <:+ tl) → s.length < tl.length →
      ∃ u, u ∈ L ∧ (u <:+ tl) ∧ u.length < tl.length ∧ s.length ≤ u.length ∧
        firstSuffixMatch tl L = some (tl.take (tl.length - u.length), u)
  | [], _, s, hmem, _, _ => absurd hmem (List.not_mem_nil s)
  | u0 :: rest, hpw, s, hmem, hsuf, hlen => by
    by_cases hc : u0 <:+ tl ∧ u0.length < tl.length
    · have hpre : tl.take (tl.length - u0.length) ≠ [] := by
        apply List.ne_nil_of_length_pos
        rw [List.length_take]
        omega
      have heq : firstSuffixMatch tl (u0 :: rest) =
          some (tl.take (tl.length - u0.length), u0) := by
        show (if u0 <:+ tl ∧ u0.length < tl.length then
            if tl.take (tl.length - u0.length) ≠ [] then
              some (tl.take (tl.length - u0.length), u0)
            else firstSuffixMatch tl rest
          else firstSuffixMatch tl rest) = _
        rw [if_pos hc, if_pos hpre]
      refine ⟨u0, List.mem_cons_self _ _, hc.1, hc.2, ?_, heq⟩
      rcases List.mem_cons.mp hmem with rfl | hm'
      · exact Nat.le_refl _
      · exact (List.pairwise_cons.mp hpw).1 s hm'
    · have heq : firstSuffixMatch tl (u0 :: rest) = firstSuffixMatch tl rest := by
        show (if u0 <:+ tl ∧ u0.length < tl.length then
            if tl.take (tl.length - u0.length) ≠ [] then
              some (tl.take (tl.length - u0.length), u0)
            else firstSuffixMatch tl rest
          else firstSuffixMatch tl rest) = _
        rw [if_neg hc]
      have hm' : s ∈ rest := by
        rcases List.mem_cons.mp hmem with rfl | hm'
        · exact absurd ⟨hsuf, hlen⟩ hc
        · exact hm'
      obtain ⟨u, hu1, hu2, hu3, hu4, hu5⟩ :=
        firstSuffixMatch_longest (List.pairwise_cons.mp hpw).2 hm' hsuf hlen
      exact ⟨u, List.mem_cons_of_mem _ hu1, hu2, hu3, hu4, heq ▸ hu5⟩

theorem sortedSuffixes_pairwise :
    sortedSuffixes.Pairwise (fun a b => b.length ≤ a.length) := by decide

theorem mem_sortedSuffixes {s : List Char} :
    s ∈ sortedSuffixes ↔ s ∈ common_suffixes :=
  List.mem_insertionSort _

theorem mem_sortedPrefixes {s : List Char} :
    s ∈ sortedPrefixes ↔ s ∈ common_prefixes :=
  List.mem_insertionSort _

theorem mem_sortedTlds {s : List Char} : s ∈ sortedTlds ↔ s ∈ tlds :=
  List.mem_insertionSort _

/-- Content preservation for the segmenter: concatenating its output gives
back the lower-cased input. -/
theorem split_concat_flatten (text : List Char) :
    (split_concatenated_words text).flatten = lowerStr text := by
  unfold split_concatenated_words
  cases hS : firstSuffixMatch (lowerStr text) sortedSuffixes with
  | some ps =>
    obtain ⟨p, s⟩ := ps
    obtain ⟨-, hsuf, hlen, hp⟩ := firstSuffixMatch_inv hS
    obtain ⟨pre0, hpre0⟩ := hsuf
    show p ++ (s ++ []) = lowerStr text
    rw [List.append_nil, hp, ← hpre0, List.length_append, Nat.add_sub_cancel,
      List.take_left]
  | none =>
    cases hP : firstPrefixMatch (lowerStr text) sortedPrefixes with
    | some ps =>
      obtain ⟨p, s⟩ := ps
      obtain ⟨-, hpre, hlen, hs⟩ := firstPrefixMatch_inv hP
      obtain ⟨suf0, hsuf0⟩ := hpre
      show p ++ (s ++ []) = lowerStr text
      rw [List.append_nil, hs, ← hsuf0, List.drop_left]
    | none =>
      by_cases hlen : (split_camel_case text).length > 1
      · rw [if_pos hlen]
        exact split_camel_flatten text
      · rw [if_neg hlen]
        show lowerStr text ++ [] = lowerStr text
        exact List.append_nil _

theorem sortedSuffixes_ne_nil : ∀ s ∈ sortedSuffixes, s ≠ [] := by decide

theorem sortedPrefixes_ne_nil : ∀ s ∈ sortedPrefixes, s ≠ [] := by decide

theorem split_concat_ne_nil (text : List Char) :
    split_concatenated_words text ≠ [] := by
  unfold split_concatenated_words
  cases hS : firstSuffixMatch (lowerStr text) sortedSuffixes with
  | some ps => obtain ⟨p, s⟩ := ps; exact List.cons_ne_nil _ _
  | none =>
    cases hP : firstPrefixMatch (lowerStr text) sortedPrefixes with
    | some ps => obtain ⟨p, s⟩ := ps; exact List.cons_ne_nil _ _
    | none =>
      by_cases hlen : (split_camel_case text).length > 1
      · rw [if_pos hlen]
        exact List.ne_nil_of_length_pos (Nat.lt_trans Nat.zero_lt_one hlen)
      · rw [if_neg hlen]
        exact List.cons_ne_nil _ _

theorem split_concat_no_nil {text : List Char} (htext : text ≠ []) :
    [] ∉ split_concatenated_words text := by
  unfold split_concatenated_words
  cases hS : firstSuffixMatch (lowerStr text) sortedSuffixes with
  | some ps =>
    obtain ⟨p, s⟩ := ps
    obtain ⟨hmem, hsuf, hlen, hp⟩ := firstSuffixMatch_inv hS
    intro hm
    rcases List.mem_cons.mp hm with h | h
    · have hpne : p ≠ [] := by
        rw [hp]
        apply List.ne_nil_of_length_pos
        rw [List.length_take]
        omega
      exact hpne h.symm
    · exact sortedSuffixes_ne_nil s hmem (List.mem_singleton.mp h).symm
  | none =>
    cases hP : firstPrefixMatch (lowerStr text) sortedPrefixes with
    | some ps =>
      obtain ⟨p, s⟩ := ps
      obtain ⟨hmem, hpre, hlen, hs⟩ := firstPrefixMatch_inv hP
      intro hm
      rcases List.mem_cons.mp hm with h | h
      · exact sortedPrefixes_ne_nil p hmem h.symm
      · have hsne : s ≠ [] := by
          rw [hs]
          apply List.ne_nil_of_length_pos
          rw [List.length_drop]
          omega
        exact hsne (List.mem_singleton.mp h).symm
    | none =>
      by_cases hlen : (split_camel_case text).length > 1
      · rw [if_pos hlen]
        exact split_camel_no_nil text
      · rw [if_neg hlen]
        intro hm
        have : ([] : List Char) = lowerStr text := List.mem_singleton.mp hm
        exact htext (List.map_eq_nil_iff.mp this.symm)

theorem split_concat_words_chars {text w : List Char}
    (hw : w ∈ split_concatenated_words text) {a : Char} (ha : a ∈ w) :
    a ∈ lowerStr text := by
  rw [← split_concat_flatten text]
  exact List.mem_flatten_of_mem hw ha

theorem split_concat_words_lower {text w : List Char}
    (hw : w ∈ split_concatenated_words text) {a : Char} (ha : a ∈ w) :
    pyIsUpper a = false := by
  obtain ⟨c, -, hc⟩ := List.mem_map.mp (split_concat_words_chars hw ha)
  rw [← hc]
  exact pyIsUpper_pyLower c

/-- C10: segmentation preserves content: concatenating the words returned by
the segmenter (and by the camel-case splitter) with no separator yields the
lower-cased token, so no characters are dropped, duplicated or reordered. -/
theorem claim_C10_content_preserved (text : List Char) :
    (split_concatenated_words text).flatten = lowerStr text ∧
    (split_camel_case text).flatten = lowerStr text :=
  ⟨split_concat_flatten text, split_camel_flatten text⟩

/-- C7 counterexample: on the empty token the segmenter returns the
one-element sequence containing the empty word, not the empty sequence the
claim demands. -/
theorem claim_C7_counterexample :
    split_concatenated_words ([] : List Char) = [[]] ∧
    split_concatenated_words ([] : List Char) ≠ [] := by decide

/-- C7 (amended): for every non-empty token the segmenter returns a
non-empty ordered sequence of non-empty lower-case words; on the empty
token it returns the one-element sequence containing the empty word. -/
theorem claim_C7_segmenter_shape (text : List Char) (h : text ≠ []) :
    split_concatenated_words text ≠ [] ∧
    (∀ w ∈ split_concatenated_words text, w ≠ []) ∧
    (∀ w ∈ split_concatenated_words text, ∀ a ∈ w, pyIsUpper a = false) ∧
    split_concatenated_words ([] : List Char) = [[]] := by
  refine ⟨split_concat_ne_nil text, ?_, ?_, by decide⟩
  · intro w hw hwnil
    exact split_concat_no_nil h (hwnil ▸ hw)
  · intro w hw a ha
    exact split_concat_words_lower hw ha

/-- C7 witness at a concrete non-empty token. -/
theorem claim_C7_witness :
    ("Tech".toList ≠ []) ∧
    (split_concatenated_words ("Tech".toList) ≠ [] ∧
      (∀ w ∈ split_concatenated_words ("Tech".toList), w ≠ []) ∧
      (∀ w ∈ split_concatenated_words ("Tech".toList), ∀ a ∈ w,
        pyIsUpper a = false) ∧
      split_concatenated_words ([] : List Char) = [[]]) :=
  ⟨by decide, claim_C7_segmenter_shape ("Tech".toList) (by decide)⟩

/-- C4: the segmenter tries suffix-dictionary matches longest-first with a
non-empty remaining prefix before any other rule: whenever some dictionary
suffix strictly shorter than the token matches, the result is a two-word
suffix split whose dictionary word is at least as long as any such match;
and segment "corporation" is not the split ["corp", "oration"]. -/
theorem claim_C4_suffix_longest_first (text s : List Char)
    (hs : s ∈ common_suffixes) (hsuf : s <:+ lowerStr text)
    (hlen : s.length < (lowerStr text).length) :
    (∃ u, u ∈ common_suffixes ∧ (u <:+ lowerStr text) ∧ s.length ≤ u.length ∧
      (lowerStr text).take ((lowerStr text).length - u.length) ≠ [] ∧
      split_concatenated_words text =
        [(lowerStr text).take ((lowerStr text).length - u.length), u]) ∧
    split_concatenated_words ("corporation".toList) ≠
      ["corp".toList, "oration".toList] := by
  refine ⟨?_, by decide⟩
  obtain ⟨u, hu1, hu2, hu3, hu4, hu5⟩ :=
    firstSuffixMatch_longest sortedSuffixes_pairwise
      (mem_sortedSuffixes.mpr hs) hsuf hlen
  refine ⟨u, mem_sortedSuffixes.mp hu1, hu2, hu4, ?_, ?_⟩
  · apply List.ne_nil_of_length_pos
    rw [List.length_take]
    omega
  · unfold split_concatenated_words
    rw [hu5]

/-- C4 witness at the token "acmecorp" and the dictionary suffix "corp". -/
theorem claim_C4_witness :
    ("corp".toList ∈ common_suffixes ∧
      ("corp".toList <:+ lowerStr ("acmecorp".toList)) ∧
      ("corp".toList).length < (lowerStr ("acmecorp".toList)).length) ∧
    ((∃ u, u ∈ common_suffixes ∧ (u <:+ lowerStr ("acmecorp".toList)) ∧
      ("corp".toList).length ≤ u.length ∧
      (lowerStr ("acmecorp".toList)).take
        ((lowerStr ("acmecorp".toList)).length - u.length) ≠ [] ∧
      split_concatenated_words ("acmecorp".toList) =
        [(lowerStr ("acmecorp".toList)).take
          ((lowerStr ("acmecorp".toList)).length - u.length), u]) ∧
    split_concatenated_words ("corporation".toList) ≠
      ["corp".toList, "oration".toList]) :=
  ⟨⟨by decide, by decide, by decide⟩,
    claim_C4_suffix_longest_first ("acmecorp".toList) ("corp".toList)
      (by decide) (by decide) (by decide)⟩

/-! ### TLD stripping lemmas -/

theorem sortedTlds_pairwise :
    sortedTlds.Pairwise (fun a b => b.length ≤ a.length) := by decide

/-- On a TLD list sorted longest-first, the strip loop strips the first
match, whose length is maximal among all matches. -/
theorem stripTldGo_longest {d : List Char} :
    ∀ {L : List (List Char)},
      L.Pairwise (fun a b => b.length ≤ a.length) →
      ∀ {t : List Char}, t ∈ L → (t <:+ lowerStr d) →
      ∃ u, u ∈ L ∧ (u <:+ lowerStr d) ∧ t.length ≤ u.length ∧
        stripTldGo d L = d.take (d.length - u.length)
  | [], _, t, hmem, _ => absurd hmem (List.not_mem_nil t)
  | u0 :: rest, hpw, t, hmem, hsuf => by
    by_cases hc : u0 <:+ lowerStr d
    · have heq : stripTldGo d (u0 :: rest) = d.take (d.length - u0.length) := by
        show (if u0 <:+ lowerStr d then d.take (d.length - u0.length)
          else stripTldGo d rest) = _
        rw [if_pos hc]
      refine ⟨u0, List.mem_cons_self _ _, hc, ?_, heq⟩
      rcases List.mem_cons.mp hmem with rfl | hm'
      · exact Nat.le_refl _
      · exact (List.pairwise_cons.mp hpw).1 t hm'
    · have heq : stripTldGo d (u0 :: rest) = stripTldGo d rest := by
        show (if u0 <:+ lowerStr d then d.take (d.length - u0.length)
          else stripTldGo d rest) = _
        rw [if_neg hc]
      have hm' : t ∈ rest := by
        rcases List.mem_cons.mp hmem with rfl | hm'
        · exact absurd hsuf hc
        · exact hm'
      obtain ⟨u, h1, h2, h3, h4⟩ :=
        stripTldGo_longest (List.pairwise_cons.mp hpw).2 hm' hsuf
      exact ⟨u, List.mem_cons_of_mem _ h1, h2, h3, heq ▸ h4⟩

/-- The strip loop either leaves the domain unchanged or removes exactly one
matching entry from the end. -/
theorem stripTldGo_cases (d : List Char) :
    ∀ L : List (List Char),
      stripTldGo d L = d ∨
      ∃ t, t ∈ L ∧ (t <:+ lowerStr d) ∧
        stripTldGo d L = d.take (d.length - t.length)
  | [] => Or.inl rfl
  | u0 :: rest => by
    by_cases hc : u0 <:+ lowerStr d
    · refine Or.inr ⟨u0, List.mem_cons_self _ _, hc, ?_⟩
      show (if u0 <:+ lowerStr d then d.take (d.length - u0.length)
        else stripTldGo d rest) = _
      rw [if_pos hc]
    · have heq : stripTldGo d (u0 :: rest) = stripTldGo d rest := by
        show (if u0 <:+ lowerStr d then d.take (d.length - u0.length)
          else stripTldGo d rest) = _
        rw [if_neg hc]
      rcases stripTldGo_cases d rest with h | ⟨t, h1, h2, h3⟩
      · exact Or.inl (heq ▸ h)
      · exact Or.inr ⟨t, List.mem_cons_of_mem _ h1, h2, heq ▸ h3⟩

/-- C5: TLD stripping removes at most one suffix, trying the fixed list
longest-first, so the stripped entry is at least as long as any matching
entry (compound TLDs beat their proper suffixes); in particular
format_display_name "foo.co.uk" strips ".co.uk" whole and returns "Foo". -/
theorem claim_C5_tld_longest_first (d t : List Char)
    (ht : t ∈ tlds) (hsuf : t <:+ lowerStr d) :
    (∃ u, u ∈ tlds ∧ (u <:+ lowerStr d) ∧ t.length ≤ u.length ∧
      stripTld d = d.take (d.length - u.length)) ∧
    (∀ d2 : List Char, stripTld d2 = d2 ∨
      ∃ v, v ∈ tlds ∧ (v <:+ lowerStr d2) ∧
        stripTld d2 = d2.take (d2.length - v.length)) ∧
    format_domain_as_display_name ("foo.co.uk".toList) = "Foo".toList := by
  refine ⟨?_, ?_, by decide⟩
  · obtain ⟨u, h1, h2, h3, h4⟩ :=
      stripTldGo_longest sortedTlds_pairwise (mem_sortedTlds.mpr ht) hsuf
    exact ⟨u, mem_sortedTlds.mp h1, h2, h3, h4⟩
  · intro d2
    rcases stripTldGo_cases d2 sortedTlds with h | ⟨v, h1, h2, h3⟩
    · exact Or.inl h
    · exact Or.inr ⟨v, mem_sortedTlds.mp h1, h2, h3⟩

/-- C5 witness: on "foo.co.uk" the entry ".uk" matches, and the loop strips
the longer ".co.uk" instead. -/
theorem claim_C5_witness :
    (".uk".toList ∈ tlds ∧ (".uk".toList <:+ lowerStr ("foo.co.uk".toList))) ∧
    ((∃ u, u ∈ tlds ∧ (u <:+ lowerStr ("foo.co.uk".toList)) ∧
      (".uk".toList).length ≤ u.length ∧
      stripTld ("foo.co.uk".toList) =
        ("foo.co.uk".toList).take (("foo.co.uk".toList).length - u.length)) ∧
    (∀ d2 : List Char, stripTld d2 = d2 ∨
      ∃ v, v ∈ tlds ∧ (v <:+ lowerStr d2) ∧
        stripTld d2 = d2.take (d2.length - v.length)) ∧
    format_domain_as_display_name ("foo.co.uk".toList) = "Foo".toList) :=
  ⟨⟨by decide, by decide⟩,
    claim_C5_tld_longest_first ("foo.co.uk".toList) (".uk".toList)
      (by decide) (by decide)⟩

/-! ### Formatter lemmas -/

theorem capitalize_chars {w : List Char} {a : Char} (ha : a ∈ capitalize w) :
    ∃ c ∈ w, a = pyUpper c ∨ a = pyLower c := by
  cases w with
  | nil => cases ha
  | cons c cs =>
    unfold capitalize at ha
    rcases List.mem_cons.mp ha with rfl | ha'
    · exact ⟨c, List.mem_cons_self _ _, Or.inl rfl⟩
    · obtain ⟨c0, hc0, hlc⟩ := List.mem_map.mp ha'
      exact ⟨c0, List.mem_cons_of_mem _ hc0, Or.inr hlc.symm⟩

theorem capitalize_ne_nil {w : List Char} (h : w ≠ []) : capitalize w ≠ [] := by
  cases w with
  | nil => exact absurd rfl h
  | cons c cs => exact List.cons_ne_nil _ _

theorem stripTld_subset (d : List Char) : ∀ a ∈ stripTld d, a ∈ d := by
  intro a ha
  have ha' : a ∈ stripTldGo d sortedTlds := ha
  rcases stripTldGo_cases d sortedTlds with h | ⟨t, -, -, h⟩
  · rw [h] at ha'; exact ha'
  · rw [h] at ha'; exact List.take_subset _ _ ha'

theorem collapseSub_props (name : List Char) :
    '.' ∉ collapseSub name ∧ ∀ a ∈ collapseSub name, a ∈ name := by
  unfold collapseSub
  by_cases h : (splitOnChar '.' name).length > 1
  · rw [if_pos h]
    have hne : splitOnChar '.' name ≠ [] := splitOnChar_ne_nil '.' name
    have hmem := getLastD_mem_self ([] : List Char) hne
    exact ⟨(splitOnChar_parts '.' name _ hmem).1, (splitOnChar_parts '.' name _ hmem).2⟩
  · rw [if_neg h]
    obtain ⟨w, ws, hR⟩ := splitOnChar_dest '.' name
    have hws : ws = [] := by
      have hlen : (splitOnChar '.' name).length = ws.length + 1 := by
        rw [hR, List.length_cons]
      rw [hlen] at h
      exact List.eq_nil_of_length_eq_zero (by omega)
    subst hws
    have hdot := (splitOnChar_eq_single '.' hR).1
    exact ⟨hdot, fun a ha => ha⟩

/-- Unfolding of the formatter with the source's local variables expanded. -/
theorem format_eq (domain : List Char) :
    format_domain_as_display_name domain =
      joinSpace (((displayWords (collapseSub (stripTld domain))).filter
        (fun w => w ≠ [])).map capitalize) := rfl

/-- Character provenance through the separator-aware segmentation step:
every character of every word is the lower-casing of a character of the
label, and when a separator split happened the originating character is
not the active separator. -/
theorem displayWords_chars {name w : List Char} (hw : w ∈ displayWords name)
    {a : Char} (ha : a ∈ w) :
    ∃ c, c ∈ name ∧ a = pyLower c ∧
      (('-' ∈ name ∨ '_' ∈ name) →
        c ≠ (if '-' ∈ name then '-' else '_')) := by
  unfold displayWords at hw
  by_cases hsep : '-' ∈ name ∨ '_' ∈ name
  · rw [if_pos hsep] at hw
    obtain ⟨wslist, hwsl, hwmem⟩ := List.mem_flatten.mp hw
    obtain ⟨part, hpart, hmapeq⟩ := List.mem_map.mp hwsl
    obtain ⟨hpp, -⟩ := List.mem_filter.mp hpart
    have hprops := splitOnChar_parts _ name part hpp
    subst hmapeq
    have hchar := split_concat_words_chars hwmem ha
    obtain ⟨c, hc, hlc⟩ := List.mem_map.mp hchar
    exact ⟨c, hprops.2 c hc, hlc.symm, fun _ heq => hprops.1 (heq ▸ hc)⟩
  · rw [if_neg hsep] at hw
    have hchar := split_concat_words_chars hw ha
    obtain ⟨c, hc, hlc⟩ := List.mem_map.mp hchar
    exact ⟨c, hc, hlc.symm, fun hs => absurd hs hsep⟩

/-- Every non-separator character of the label reappears (lower-cased) in
some word of the separator-aware segmentation. -/
theorem displayWords_covers {name : List Char} {c : Char} (hc : c ∈ name)
    (hsep : ('-' ∈ name ∨ '_' ∈ name) →
      c ≠ (if '-' ∈ name then '-' else '_')) :
    ∃ w ∈ displayWords name, pyLower c ∈ w := by
  unfold displayWords
  by_cases hs : '-' ∈ name ∨ '_' ∈ name
  · rw [if_pos hs]
    obtain ⟨part, hpart, hcp⟩ := splitOnChar_covers _ name c hc (hsep hs)
    have hpne : part ≠ [] := List.ne_nil_of_mem hcp
    have hlow : pyLower c ∈ lowerStr part := List.mem_map.mpr ⟨c, hcp, rfl⟩
    rw [← split_concat_flatten part] at hlow
    obtain ⟨w, hw, hcw⟩ := List.mem_flatten.mp hlow
    refine ⟨w, List.mem_flatten.mpr ⟨split_concatenated_words part, ?_, hw⟩, hcw⟩
    exact List.mem_map.mpr ⟨part, List.mem_filter.mpr ⟨hpart, by simp [hpne]⟩, rfl⟩
  · rw [if_neg hs]
    have hlow : pyLower c ∈ lowerStr name := List.mem_map.mpr ⟨c, hc, rfl⟩
    rw [← split_concat_flatten name] at hlow
    exact List.mem_flatten.mp hlow

theorem joinSpace_chars : ∀ (ws : List (List Char)) {a : Char},
    a ∈ joinSpace ws → a = ' ' ∨ ∃ w ∈ ws, a ∈ w
  | [], a, h => absurd h (List.not_mem_nil a)
  | [w], a, h => Or.inr ⟨w, List.mem_cons_self _ _, h⟩
  | w :: w2 :: ws, a, h => by
    have hjr : joinSpace (w :: w2 :: ws) = w ++ ' ' :: joinSpace (w2 :: ws) := rfl
    rw [hjr] at h
    rcases List.mem_append.mp h with h' | h'
    · exact Or.inr ⟨w, List.mem_cons_self _ _, h'⟩
    · rcases List.mem_cons.mp h' with rfl | h''
      · exact Or.inl rfl
      · rcases joinSpace_chars (w2 :: ws) h'' with h3 | ⟨w', hw', ha'⟩
        · exact Or.inl h3
        · exact Or.inr ⟨w', List.mem_cons_of_mem _ hw', ha'⟩

theorem chain_no_space {l : List Char} (h : ∀ a ∈ l, a ≠ ' ') :
    List.Chain' (fun a b => ¬(a = ' ' ∧ b = ' ')) l := by
  induction l with
  | nil => exact List.chain'_nil
  | cons a t ih =>
    rw [List.chain'_cons']
    refine ⟨fun y _ hy => ?_, ih fun b hb => h b (List.mem_cons_of_mem _ hb)⟩
    exact h a (List.mem_cons_self _ _) hy.1

/-- Joining non-empty space-free words with single spaces yields a string
with no two consecutive spaces, whose head is not a space. -/
theorem joinSpace_no_double : ∀ ws : List (List Char),
    (∀ w ∈ ws, w ≠ [] ∧ ∀ a ∈ w, a ≠ ' ') →
    List.Chain' (fun a b => ¬(a = ' ' ∧ b = ' ')) (joinSpace ws) ∧
      ∀ c, (joinSpace ws).head? = some c → c ≠ ' '
  | [], _ => ⟨List.chain'_nil, fun c h => by cases h⟩
  | [w], h => by
    have hw := h w (List.mem_cons_self _ _)
    refine ⟨chain_no_space hw.2, ?_⟩
    intro c hc
    cases w with
    | nil => cases hc
    | cons b t =>
      have hc2 : some b = some c := hc
      injection hc2 with h'
      subst h'
      exact hw.2 b (List.mem_cons_self _ _)
  | w :: w2 :: ws, h => by
    have hw := h w (List.mem_cons_self _ _)
    have hrest : ∀ v ∈ w2 :: ws, v ≠ [] ∧ ∀ a ∈ v, a ≠ ' ' :=
      fun v hv => h v (List.mem_cons_of_mem _ hv)
    obtain ⟨hch, hhd⟩ := joinSpace_no_double (w2 :: ws) hrest
    have hjr : joinSpace (w :: w2 :: ws) = w ++ ' ' :: joinSpace (w2 :: ws) := rfl
    rw [hjr]
    constructor
    · rw [List.chain'_append]
      refine ⟨chain_no_space hw.2, ?_, ?_⟩
      · rw [List.chain'_cons']
        refine ⟨?_, hch⟩
        intro y hy hcon
        exact hhd y hy hcon.2
      · intro x hx y hy hcon
        have hxw : x ∈ w := List.mem_of_getLast?_eq_some hx
        exact hw.2 x hxw hcon.1
    · intro c hc
      cases hd : w with
      | nil => exact absurd hd hw.1
      | cons b t =>
        subst hd
        have hc2 : some b = some c := hc
        injection hc2 with h'
        subst h'
        exact hw.2 b (List.mem_cons_self _ _)

/-- Every word entering the capitalize-and-join step of the formatter, for a
label whose characters avoid the listed characters (with the separator rule),
is non-empty and avoids them too. -/
theorem format_word_good {d : List Char} (h1 : '@' ∉ d) (h2 : ' ' ∉ d)
    (h3 : ¬('-' ∈ d ∧ '_' ∈ d)) :
    ∀ v ∈ ((displayWords (collapseSub (stripTld d))).filter
        (fun w => w ≠ [])).map capitalize,
      v ≠ [] ∧ ∀ a ∈ v, a ≠ '@' ∧ a ≠ '.' ∧ a ≠ '-' ∧ a ≠ '_' ∧ a ≠ ' ' := by
  intro v hv
  obtain ⟨w, hwf, hcap⟩ := List.mem_map.mp hv
  obtain ⟨hw, hwne'⟩ := List.mem_filter.mp hwf
  have hwne : w ≠ [] := by simpa using hwne'
  subst hcap
  refine ⟨capitalize_ne_nil hwne, ?_⟩
  intro a ha
  obtain ⟨c0, hc0, hcase⟩ := capitalize_chars ha
  obtain ⟨c1, hc1, hc0eq, hc1sep⟩ := displayWords_chars hw hc0
  set name := collapseSub (stripTld d) with hname
  have hsubd : ∀ b, b ∈ name → b ∈ d :=
    fun b hb => stripTld_subset d b ((collapseSub_props (stripTld d)).2 b hb)
  have hdot : '.' ∉ name := (collapseSub_props (stripTld d)).1
  have key : ∀ t : Char, ¬(65 ≤ t.toNat ∧ t.toNat ≤ 90) →
      ¬(97 ≤ t.toNat ∧ t.toNat ≤ 122) → a = t → c1 = t := by
    intro t htu htl hat
    subst hat
    have hc0t : c0 = a := by
      rcases hcase with hcu | hcl
      · exact pyUpper_eq_fix htu hcu.symm
      · exact pyLower_eq_fix htl hcl.symm
    rw [hc0t] at hc0eq
    exact pyLower_eq_fix htl hc0eq.symm
  refine ⟨?_, ?_, ?_, ?_, ?_⟩
  · intro hat
    have : c1 = '@' := key '@' (by decide) (by decide) hat
    exact h1 (hsubd '@' (this ▸ hc1))
  · intro hat
    have : c1 = '.' := key '.' (by decide) (by decide) hat
    exact hdot (this ▸ hc1)
  · intro hat
    have hcd : c1 = '-' := key '-' (by decide) (by decide) hat
    subst hcd
    by_cases hmem : '-' ∈ name
    · have := hc1sep (Or.inl hmem)
      rw [if_pos hmem] at this
      exact this rfl
    · exact hmem hc1
  · intro hat
    have hcd : c1 = '_' := key '_' (by decide) (by decide) hat
    subst hcd
    by_cases hmem : '_' ∈ name
    · have hnd : '-' ∉ name := by
        intro hmd
        exact h3 ⟨hsubd '-' hmd, hsubd '_' hmem⟩
      have := hc1sep (Or.inr hmem)
      rw [if_neg hnd] at this
      exact this rfl
    · exact hmem hc1
  · intro hat
    have : c1 = ' ' := key ' ' (by decide) (by decide) hat
    exact h2 (hsubd ' ' (this ▸ hc1))

/-- A string satisfying the no-two-adjacent-spaces chain condition has no
occurrence of two consecutive spaces as an infix. -/
theorem chain_no_double_infix {l : List Char}
    (h : List.Chain' (fun a b => ¬(a = ' ' ∧ b = ' ')) l) :
    ¬ ([' ', ' '] <:+: l) := by
  rintro ⟨s, t, hst⟩
  rw [List.append_assoc] at hst
  rw [← hst] at h
  rw [List.chain'_append] at h
  exact (List.chain'_cons.mp h.2.1).1 ⟨rfl, rfl⟩

/-- C6 counterexample: the claim fails as stated: for the at-sign-free
domain "a  b-c_d" the formatter output "A  b C_d" contains an underscore
and two consecutive spaces (the label contains both separators, and only
the hyphen is split on; interior spaces pass through). -/
theorem claim_C6_counterexample :
    ('@' ∉ ("a  b-c_d".toList)) ∧
    '_' ∈ format_domain_as_display_name ("a  b-c_d".toList) ∧
    ([' ', ' '] <:+: format_domain_as_display_name ("a  b-c_d".toList)) := by
  refine ⟨by decide, by decide, ?_⟩
  exact ⟨"A".toList, "b C_d".toList, by decide⟩

/-- C6 (amended): for every domain containing no at-sign and no space, and
not containing both a hyphen and an underscore, the formatter output
contains no at-sign, dot, hyphen or underscore, and no two consecutive
spaces. -/
theorem claim_C6_formatter_chars (d : List Char) (h1 : '@' ∉ d) (h2 : ' ' ∉ d)
    (h3 : ¬('-' ∈ d ∧ '_' ∈ d)) :
    (∀ a ∈ format_domain_as_display_name d,
      a ≠ '@' ∧ a ≠ '.' ∧ a ≠ '-' ∧ a ≠ '_') ∧
    ¬ ([' ', ' '] <:+: format_domain_as_display_name d) := by
  have hgood := format_word_good h1 h2 h3
  rw [format_eq]
  constructor
  · intro a ha
    rcases joinSpace_chars _ ha with rfl | ⟨w, hw, haw⟩
    · exact ⟨by decide, by decide, by decide, by decide⟩
    · have := (hgood w hw).2 a haw
      exact ⟨this.1, this.2.1, this.2.2.1, this.2.2.2.1⟩
  · apply chain_no_double_infix
    refine (joinSpace_no_double _ ?_).1
    intro w hw
    exact ⟨(hgood w hw).1, fun a haw => ((hgood w hw).2 a haw).2.2.2.2⟩

/-- C6 witness at a concrete hyphenated domain. -/
theorem claim_C6_witness :
    ('@' ∉ ("acme-corp.com".toList) ∧ ' ' ∉ ("acme-corp.com".toList) ∧
      ¬('-' ∈ ("acme-corp.com".toList) ∧ '_' ∈ ("acme-corp.com".toList))) ∧
    ((∀ a ∈ format_domain_as_display_name ("acme-corp.com".toList),
      a ≠ '@' ∧ a ≠ '.' ∧ a ≠ '-' ∧ a ≠ '_') ∧
    ¬ ([' ', ' '] <:+: format_domain_as_display_name ("acme-corp.com".toList))) :=
  ⟨⟨by decide, by decide, by decide⟩,
    claim_C6_formatter_chars ("acme-corp.com".toList)
      (by decide) (by decide) (by decide)⟩

theorem joinSpace_cons_ne_nil {v : List Char} (hv : v ≠ []) (vs : List (List Char)) :
    joinSpace (v :: vs) ≠ [] := by
  cases vs with
  | nil => exact hv
  | cons v2 vs2 =>
    have hjr : joinSpace (v :: v2 :: vs2) = v ++ ' ' :: joinSpace (v2 :: vs2) := rfl
    rw [hjr]
    intro h
    exact List.cons_ne_nil ' ' _ (List.append_eq_nil.mp h).2

/-- The formatter returns the empty string exactly when no non-empty word
survives the separator-aware segmentation of the collapsed label. -/
theorem format_empty_iff (d : List Char) :
    format_domain_as_display_name d = [] ↔
      (displayWords (collapseSub (stripTld d))).filter (fun w => w ≠ []) = [] := by
  rw [format_eq]
  constructor
  · intro h
    cases hW : (displayWords (collapseSub (stripTld d))).filter (fun w => w ≠ []) with
    | nil => rfl
    | cons w ws =>
      exfalso
      have hwne : w ≠ [] := by
        have := (List.mem_filter.mp (hW ▸ List.mem_cons_self w ws)).2
        simpa using this
      rw [hW, List.map_cons] at h
      exact joinSpace_cons_ne_nil (capitalize_ne_nil hwne) _ h
  · intro h
    rw [h]
    rfl

/-- C8 counterexample: the claim fails as stated: "acme." is non-empty and
still contains an alphabetic character after TLD stripping (no TLD
matches), yet the subdomain collapse keeps the empty last label and the
display name is the empty string. -/
theorem claim_C8_counterexample :
    ("acme.".toList ≠ []) ∧
    (∃ c ∈ stripTld ("acme.".toList), pyIsAlpha c = true) ∧
    format_domain_as_display_name ("acme.".toList) = [] := by
  refine ⟨by decide, ⟨'a', by decide, by decide⟩, by decide⟩

/-- C8 (amended): whenever the label left after TLD stripping and subdomain
collapse still contains an alphabetic character, the display name is
non-empty; the empty string is produced exactly when segmentation of that
label yields no non-empty words; and every CompanyInfo built by the
resolver carries format_display_name of its domain as display name. -/
theorem claim_C8_display_nonempty (d : List Char)
    (h : ∃ c ∈ collapseSub (stripTld d), pyIsAlpha c = true) :
    format_domain_as_display_name d ≠ [] ∧
    (∀ d2 : List Char, format_domain_as_display_name d2 = [] ↔
      (displayWords (collapseSub (stripTld d2))).filter (fun w => w ≠ []) = []) ∧
    (∀ (email : List Char) (ci : CompanyInfo),
      extract_company_from_email email = some ci →
      ci.display_name = format_domain_as_display_name ci.domain) := by
  refine ⟨?_, format_empty_iff, ?_⟩
  · obtain ⟨c, hc, halpha⟩ := h
    set name := collapseSub (stripTld d) with hname
    have hcsep : ('-' ∈ name ∨ '_' ∈ name) →
        c ≠ (if '-' ∈ name then '-' else '_') := by
      intro hs heq
      by_cases hm : '-' ∈ name
      · rw [if_pos hm] at heq
        rw [heq] at halpha
        exact absurd halpha (by decide)
      · rw [if_neg hm] at heq
        rw [heq] at halpha
        exact absurd halpha (by decide)
    obtain ⟨w, hw, hcw⟩ := displayWords_covers hc hcsep
    have hwne : w ≠ [] := List.ne_nil_of_mem hcw
    intro hfmt
    have hfil := (format_empty_iff d).mp hfmt
    rw [List.filter_eq_nil_iff] at hfil
    have := hfil w hw
    simp only [ne_eq, decide_not, Bool.not_eq_true', decide_eq_false_iff_not,
      Decidable.not_not] at this
    exact hwne this
  · intro email ci hci
    unfold extract_company_from_email at hci
    cases hE : extract_domain_from_email email with
    | none => rw [hE] at hci; cases hci
    | some dom =>
      rw [hE] at hci
      injection hci with h'
      rw [← h']

/-- C8 witness at a concrete domain whose collapsed label is alphabetic. -/
theorem claim_C8_witness :
    (∃ c ∈ collapseSub (stripTld ("acmecorp.com".toList)), pyIsAlpha c = true) ∧
    (format_domain_as_display_name ("acmecorp.com".toList) ≠ [] ∧
    (∀ d2 : List Char, format_domain_as_display_name d2 = [] ↔
      (displayWords (collapseSub (stripTld d2))).filter (fun w => w ≠ []) = []) ∧
    (∀ (email : List Char) (ci : CompanyInfo),
      extract_company_from_email email = some ci →
      ci.display_name = format_domain_as_display_name ci.domain)) :=
  ⟨⟨'a', by decide, by decide⟩,
    claim_C8_display_nonempty ("acmecorp.com".toList) ⟨'a', by decide, by decide⟩⟩

end CompanyExtraction
